import Mathlib

/-!
Verification of the 1D cutting-stock packer (`first_fit_decreasing` in
`Verschnittoptimierung.py`).

The source function takes a stock length and a list of demands
`(effective_length, quantity)`, expands each demand into `quantity` part
instances tagged with the demand's index, sorts them by length descending
(Python's stable sort), packs them first-fit into rods, and finally builds one
result row per rod with a grouped, formatted parts summary.

Numbers are modelled by `ℚ` (the source works on Python numerics treated as
exact reals by the specification).
-/

/-- A rod, exactly the dictionary built by the source: 1-based id, used length,
leftover, and the list of placed parts `(length, demand index)` in placement
order. -/
structure Rod where
  rod_id : Nat
  used_length : ℚ
  leftover : ℚ
  parts : List (ℚ × Nat)
  deriving Repr, DecidableEq

/-- Step 1 of the source, with the running index of `enumerate` as an explicit
counter: `for i, (eff_length, qty) in enumerate(demands): for _ in range(qty):
items.append((eff_length, i))`. -/
def expandFrom (i : Nat) : List (ℚ × Nat) → List (ℚ × Nat)
  | [] => []
  | d :: ds => List.replicate d.2 (d.1, i) ++ expandFrom (i + 1) ds

/-- Step 1 of the source: expand demands into individual part instances, each
tagged with the index of the demand it came from. -/
def expand (demands : List (ℚ × Nat)) : List (ℚ × Nat) :=
  expandFrom 0 demands

/-- Insert an element into a descending-sorted list, after every element of
greater-or-equal key, as Python's stable sort does for a later-coming element. -/
def insertDesc (x : ℚ × Nat) : List (ℚ × Nat) → List (ℚ × Nat)
  | [] => [x]
  | y :: ys => if y.1 ≤ x.1 then x :: y :: ys else y :: insertDesc x ys

/-- Step 2 of the source: `items.sort(key=lambda x: x[0], reverse=True)` —
a stable sort by first component, descending. Modelled as a stable insertion
sort, which computes the same list (the unique permutation that is descending
by key and preserves the original order among equal keys). -/
def sortDesc : List (ℚ × Nat) → List (ℚ × Nat)
  | [] => []
  | x :: xs => insertDesc x (sortDesc xs)

/-- The rod updated when a part is placed on it (the mutation in the inner
`for rod in rods` loop of the source). -/
def updateRod (stock : ℚ) (r : Rod) (p : ℚ × Nat) : Rod :=
  { r with
    parts := r.parts ++ [p]
    used_length := r.used_length + p.1
    leftover := stock - (r.used_length + p.1) }

/-- The inner first-fit scan: place `p` on the first rod whose leftover is at
least `p`'s length; `none` when no rod qualifies. -/
def placeInRods (stock : ℚ) (p : ℚ × Nat) : List Rod → Option (List Rod)
  | [] => none
  | r :: rs =>
    if p.1 ≤ r.leftover then some (updateRod stock r p :: rs)
    else (placeInRods stock p rs).map (fun rs' => r :: rs')

/-- The fresh rod appended by the source when no existing rod fits. -/
def newRod (stock : ℚ) (n : Nat) (p : ℚ × Nat) : Rod :=
  { rod_id := n + 1
    used_length := p.1
    leftover := stock - p.1
    parts := [p] }

/-- One iteration of the outer `for part_length, part_type in items` loop. -/
def placePart (stock : ℚ) (rods : List Rod) (p : ℚ × Nat) : List Rod :=
  match placeInRods stock p rods with
  | some rods' => rods'
  | none => rods ++ [newRod stock rods.length p]

/-- Steps 1–4 of the source: the list of rods after packing all items. -/
def packRods (stock : ℚ) (demands : List (ℚ × Nat)) : List Rod :=
  (sortDesc (expand demands)).foldl (placePart stock) []

/-- The key a part is grouped by in the result summary: `(idx, length)`. -/
def partKey (p : ℚ × Nat) : Nat × ℚ :=
  (p.2, p.1)

/-- One step of the counting dictionary `part_count[(idx, length)] += 1`
(Python dicts preserve insertion order, so a new key is appended). -/
def bumpKey (acc : List ((Nat × ℚ) × Nat)) (k : Nat × ℚ) : List ((Nat × ℚ) × Nat) :=
  if acc.any (fun g => decide (g.1 = k)) then
    acc.map (fun g => if g.1 = k then (g.1, g.2 + 1) else g)
  else acc ++ [(k, 1)]

/-- The per-rod grouping of parts by `(idx, length)` with occurrence counts,
in first-encountered key order, as built by the source's `part_count` dict. -/
def groupCounts (parts : List (ℚ × Nat)) : List ((Nat × ℚ) × Nat) :=
  parts.foldl (fun acc p => bumpKey acc (partKey p)) []

/-- Python's `int()` conversion: truncation toward zero. -/
def truncRat (q : ℚ) : ℤ :=
  if 0 ≤ q then q.floor else q.ceil

/-- The formatted summary of one group: `f"{count} × {int(length)}"`. -/
def groupStr (g : (Nat × ℚ) × Nat) : String :=
  toString g.2 ++ " × " ++ toString (truncRat g.1.2)

/-- The comma-joined parts summary string of a rod. -/
def partsStr (parts : List (ℚ × Nat)) : String :=
  String.intercalate ", " ((groupCounts parts).map groupStr)

/-- One row of the result table, with the source's column names. -/
structure ResultRow where
  stange : Nat
  verbrauchteLaenge : ℚ
  rest : ℚ
  teile : String
  deriving Repr, DecidableEq

/-- The row the source builds for one rod. -/
def mkRow (r : Rod) : ResultRow :=
  { stange := r.rod_id
    verbrauchteLaenge := r.used_length
    rest := r.leftover
    teile := partsStr r.parts }

/-- The whole source function: pack, then one result row per rod in creation
order. -/
def first_fit_decreasing (stock_length : ℚ) (demands : List (ℚ × Nat)) : List ResultRow :=
  (packRods stock_length demands).map mkRow

/-- All parts placed across all rods, in rod order. -/
def rodsParts (rods : List Rod) : List (ℚ × Nat) :=
  (rods.map Rod.parts).flatten

example : packRods 5000 [(1002, 3)] =
    [⟨1, 3006, 1994, [(1002, 0), (1002, 0), (1002, 0)]⟩] := by
  norm_num [packRods, expand, sortDesc, insertDesc, placePart, placeInRods, updateRod, newRod]

example : packRods 5000 [(2502, 1), (2502, 1)] =
    [⟨1, 2502, 2498, [(2502, 0)]⟩, ⟨2, 2502, 2498, [(2502, 1)]⟩] := by
  norm_num [packRods, expand, sortDesc, insertDesc, placePart, placeInRods, updateRod, newRod]

example : packRods 1000 [(1500, 1)] = [⟨1, 1500, -500, [(1500, 0)]⟩] := by
  norm_num [packRods, expand, sortDesc, insertDesc, placePart, placeInRods, updateRod, newRod]

example : first_fit_decreasing 1000 [] = [] := by
  norm_num [first_fit_decreasing, packRods, expand, sortDesc]

example : sortDesc [(1, 0), (2, 1), (1, 2)] = [(2, 1), (1, 0), (1, 2)] := by
  norm_num [sortDesc, insertDesc]

example : partsStr [(1002, 0), (1002, 0), (500, 1)] = "2 × 1002, 1 × 500" := by
  norm_num [partsStr, groupCounts, bumpKey, partKey, groupStr, truncRat]
  rfl

/-! ### The stable descending sort -/

theorem insertDesc_perm (x : ℚ × Nat) (l : List (ℚ × Nat)) :
    List.Perm (insertDesc x l) (x :: l) := by
  induction l with
  | nil => exact List.Perm.refl _
  | cons y ys ih =>
    by_cases h : y.1 ≤ x.1
    · simp only [insertDesc, if_pos h]
      exact List.Perm.refl _
    · simp only [insertDesc, if_neg h]
      exact (ih.cons y).trans (List.Perm.swap x y ys)

theorem sortDesc_perm (l : List (ℚ × Nat)) : List.Perm (sortDesc l) l := by
  induction l with
  | nil => exact List.Perm.refl _
  | cons x xs ih => exact (insertDesc_perm x (sortDesc xs)).trans (ih.cons x)

theorem insertDesc_pairwise (x : ℚ × Nat) {l : List (ℚ × Nat)}
    (h : l.Pairwise (fun a b => b.1 ≤ a.1)) :
    (insertDesc x l).Pairwise (fun a b => b.1 ≤ a.1) := by
  induction l with
  | nil => simp [insertDesc]
  | cons y ys ih =>
    rcases List.pairwise_cons.1 h with ⟨hy, hys⟩
    by_cases hxy : y.1 ≤ x.1
    · simp only [insertDesc, if_pos hxy]
      refine List.pairwise_cons.2 ⟨?_, h⟩
      intro z hz
      rcases List.mem_cons.1 hz with rfl | hz
      · exact hxy
      · exact le_trans (hy z hz) hxy
    · simp only [insertDesc, if_neg hxy]
      refine List.pairwise_cons.2 ⟨?_, ih hys⟩
      intro z hz
      have hz2 : z = x ∨ z ∈ ys := List.mem_cons.1 ((insertDesc_perm x ys).mem_iff.1 hz)
      rcases hz2 with rfl | hz'
      · exact le_of_lt (not_le.mp hxy)
      · exact hy z hz'

theorem sortDesc_pairwise (l : List (ℚ × Nat)) :
    (sortDesc l).Pairwise (fun a b => b.1 ≤ a.1) := by
  induction l with
  | nil => simp [sortDesc]
  | cons x xs ih => exact insertDesc_pairwise x ih

theorem insertDesc_filter (x : ℚ × Nat) (l : List (ℚ × Nat)) (v : ℚ) :
    (insertDesc x l).filter (fun p => decide (p.1 = v)) =
      if x.1 = v then x :: l.filter (fun p => decide (p.1 = v))
      else l.filter (fun p => decide (p.1 = v)) := by
  induction l with
  | nil => by_cases hx : x.1 = v <;> simp [insertDesc, hx]
  | cons y ys ih =>
    by_cases hxy : y.1 ≤ x.1
    · rw [insertDesc, if_pos hxy]
      by_cases hx : x.1 = v <;> simp [List.filter_cons, hx]
    · rw [insertDesc, if_neg hxy]
      by_cases hx : x.1 = v
      · have hy : ¬(y.1 = v) := fun hy => hxy (by rw [hy, hx])
        simp [List.filter_cons, hx, hy, ih]
      · simp [List.filter_cons, ih, if_neg hx]

theorem sortDesc_filter (l : List (ℚ × Nat)) (v : ℚ) :
    (sortDesc l).filter (fun p => decide (p.1 = v)) =
      l.filter (fun p => decide (p.1 = v)) := by
  induction l with
  | nil => rfl
  | cons x xs ih =>
    by_cases hx : x.1 = v <;>
      simp [sortDesc, insertDesc_filter, hx, List.filter_cons, ih]

/-- Claim C5: after expansion, part instances are processed in descending order
of effective length; among equal lengths the original expansion order is kept
(the filter at each length value is unchanged), and the processing order is by
construction a function of the input. -/
theorem sortDesc_stable_desc (stock : ℚ) (demands : List (ℚ × Nat)) :
    List.Perm (sortDesc (expand demands)) (expand demands) ∧
    (sortDesc (expand demands)).Pairwise (fun a b => b.1 ≤ a.1) ∧
    (∀ v : ℚ, (sortDesc (expand demands)).filter (fun p => decide (p.1 = v)) =
      (expand demands).filter (fun p => decide (p.1 = v))) ∧
    packRods stock demands = (sortDesc (expand demands)).foldl (placePart stock) [] :=
  ⟨sortDesc_perm _, sortDesc_pairwise _, fun v => sortDesc_filter _ v, rfl⟩

/-! ### The first-fit placement step -/

theorem placeInRods_none_iff (stock : ℚ) (p : ℚ × Nat) (rods : List Rod) :
    placeInRods stock p rods = none ↔ ∀ r ∈ rods, r.leftover < p.1 := by
  induction rods with
  | nil => simp [placeInRods]
  | cons r rs ih =>
    by_cases h : p.1 ≤ r.leftover
    · rw [placeInRods, if_pos h]
      constructor
      · intro hsome; exact absurd hsome (by simp)
      · intro hall; exact absurd (hall r (List.mem_cons_self r rs)) (not_lt.2 h)
    · rw [placeInRods, if_neg h, Option.map_eq_none', ih]
      constructor
      · intro hall q hq
        rcases List.mem_cons.1 hq with rfl | hq'
        · exact not_le.1 h
        · exact hall q hq'
      · intro hall q hq
        exact hall q (List.mem_cons_of_mem r hq)

theorem placeInRods_some (stock : ℚ) (p : ℚ × Nat) {rods rods' : List Rod}
    (h : placeInRods stock p rods = some rods') :
    ∃ pre r post, rods = pre ++ r :: post ∧ (∀ x ∈ pre, x.leftover < p.1) ∧
      p.1 ≤ r.leftover ∧ rods' = pre ++ updateRod stock r p :: post := by
  induction rods generalizing rods' with
  | nil => exact absurd h (by simp [placeInRods])
  | cons r rs ih =>
    by_cases hfit : p.1 ≤ r.leftover
    · rw [placeInRods, if_pos hfit] at h
      exact ⟨[], r, rs, rfl, by simp, hfit, by simpa using h.symm⟩
    · rw [placeInRods, if_neg hfit] at h
      rcases Option.map_eq_some'.1 h with ⟨rs', hrs', rfl⟩
      rcases ih hrs' with ⟨pre, r0, post, hdecomp, hpre, hfit0, hres⟩
      refine ⟨r :: pre, r0, post, by rw [hdecomp]; rfl, ?_, hfit0, by rw [hres]; rfl⟩
      intro x hx
      rcases List.mem_cons.1 hx with rfl | hx'
      · exact not_le.1 hfit
      · exact hpre x hx'

theorem placeInRods_first (stock : ℚ) (p : ℚ × Nat) {pre : List Rod} {r : Rod}
    (post : List Rod) (hpre : ∀ x ∈ pre, x.leftover < p.1) (hfit : p.1 ≤ r.leftover) :
    placeInRods stock p (pre ++ r :: post) = some (pre ++ updateRod stock r p :: post) := by
  induction pre with
  | nil => simp [placeInRods, if_pos hfit]
  | cons q qs ih =>
    have hq : q.leftover < p.1 := hpre q (List.mem_cons_self q qs)
    have hrec := ih (fun x hx => hpre x (List.mem_cons_of_mem q hx))
    simp [placeInRods, if_neg (not_le.2 hq), hrec]

theorem placePart_of_no_fit (stock : ℚ) (p : ℚ × Nat) {rods : List Rod}
    (h : ∀ r ∈ rods, r.leftover < p.1) :
    placePart stock rods p = rods ++ [newRod stock rods.length p] := by
  rw [placePart, (placeInRods_none_iff stock p rods).2 h]

theorem placePart_of_first_fit (stock : ℚ) (p : ℚ × Nat) {pre : List Rod} {r : Rod}
    (post : List Rod) (hpre : ∀ x ∈ pre, x.leftover < p.1) (hfit : p.1 ≤ r.leftover) :
    placePart stock (pre ++ r :: post) p = pre ++ updateRod stock r p :: post := by
  rw [placePart, placeInRods_first stock p post hpre hfit]

theorem placeInRods_length (stock : ℚ) (p : ℚ × Nat) {rods rods' : List Rod}
    (h : placeInRods stock p rods = some rods') : rods'.length = rods.length := by
  rcases placeInRods_some stock p h with ⟨pre, r, post, rfl, _, _, rfl⟩
  simp

/-! ### Conservation of part instances -/

theorem rodsParts_placeInRods (stock : ℚ) (p : ℚ × Nat) {rods rods' : List Rod}
    (h : placeInRods stock p rods = some rods') :
    List.Perm (rodsParts rods') (p :: rodsParts rods) := by
  rcases placeInRods_some stock p h with ⟨pre, r, post, rfl, _, _, rfl⟩
  simp only [rodsParts, List.map_append, List.map_cons, List.flatten_append,
    List.flatten_cons, updateRod, List.append_assoc, List.singleton_append]
  exact (List.perm_middle.append_left _).trans List.perm_middle

theorem rodsParts_placePart (stock : ℚ) (rods : List Rod) (p : ℚ × Nat) :
    List.Perm (rodsParts (placePart stock rods p)) (p :: rodsParts rods) := by
  rw [placePart]
  cases hpl : placeInRods stock p rods with
  | none =>
    simp only [rodsParts, List.map_append, List.flatten_append, List.map_cons,
      List.flatten_cons, newRod, List.flatten_nil, List.append_nil]
    exact List.perm_append_comm
  | some rods' => exact rodsParts_placeInRods stock p hpl

theorem rodsParts_foldl (stock : ℚ) (items : List (ℚ × Nat)) :
    ∀ rods : List Rod,
      List.Perm (rodsParts (items.foldl (placePart stock) rods)) (rodsParts rods ++ items) := by
  induction items with
  | nil => intro rods; simp
  | cons p ps ih =>
    intro rods
    refine (ih (placePart stock rods p)).trans ?_
    refine (List.Perm.append_right ps (rodsParts_placePart stock rods p)).trans ?_
    exact List.perm_middle.symm

theorem packRods_parts_perm (stock : ℚ) (demands : List (ℚ × Nat)) :
    List.Perm (rodsParts (packRods stock demands)) (expand demands) := by
  refine (rodsParts_foldl stock (sortDesc (expand demands)) []).trans ?_
  simpa [rodsParts] using sortDesc_perm (expand demands)

/-! ### Expansion: lengths and sums -/

theorem expandFrom_length (ds : List (ℚ × Nat)) :
    ∀ i, (expandFrom i ds).length = (ds.map (fun d => d.2)).sum := by
  induction ds with
  | nil => intro i; rfl
  | cons d ds ih => intro i; simp [expandFrom, ih]

theorem expand_length (demands : List (ℚ × Nat)) :
    (expand demands).length = (demands.map (fun d => d.2)).sum :=
  expandFrom_length demands 0

theorem expandFrom_sum (ds : List (ℚ × Nat)) :
    ∀ i, ((expandFrom i ds).map Prod.fst).sum = (ds.map (fun d => (d.2 : ℚ) * d.1)).sum := by
  induction ds with
  | nil => intro i; rfl
  | cons d ds ih =>
    intro i
    simp [expandFrom, ih, List.map_replicate, List.sum_replicate, nsmul_eq_mul]

theorem expand_sum (demands : List (ℚ × Nat)) :
    ((expand demands).map Prod.fst).sum = (demands.map (fun d => (d.2 : ℚ) * d.1)).sum :=
  expandFrom_sum demands 0

/-! ### The accounting invariant of every rod -/

/-- The two derived fields of a rod agree with its parts list: `used_length` is
the sum of the placed lengths and `leftover` is the stock length minus it. -/
def RodWF (stock : ℚ) (r : Rod) : Prop :=
  r.used_length = (r.parts.map Prod.fst).sum ∧ r.leftover = stock - r.used_length

theorem updateRod_WF {stock : ℚ} {r : Rod} (p : ℚ × Nat) (h : RodWF stock r) :
    RodWF stock (updateRod stock r p) := by
  obtain ⟨h1, h2⟩ := h
  constructor
  · simp [updateRod, h1]
  · simp [updateRod]

theorem newRod_WF (stock : ℚ) (n : Nat) (p : ℚ × Nat) : RodWF stock (newRod stock n p) := by
  constructor <;> simp [newRod]

/-- A generic preservation principle for the packing fold: if `f` preserves a
state predicate `P` at every item satisfying `Q`, then the fold preserves it. -/
theorem foldl_inv {α β : Type} {f : β → α → β} {Q : α → Prop} {P : β → Prop}
    (step : ∀ b a, Q a → P b → P (f b a)) :
    ∀ (l : List α) (b : β), (∀ a ∈ l, Q a) → P b → P (l.foldl f b) := by
  intro l
  induction l with
  | nil => intro b _ hb; exact hb
  | cons a as ih =>
    intro b hQ hb
    exact ih _ (fun x hx => hQ x (List.mem_cons_of_mem _ hx))
      (step b a (hQ a (List.mem_cons_self _ _)) hb)

theorem placePart_WF (stock : ℚ) {rods : List Rod} (p : ℚ × Nat)
    (h : ∀ r ∈ rods, RodWF stock r) : ∀ r ∈ placePart stock rods p, RodWF stock r := by
  rw [placePart]
  cases hpl : placeInRods stock p rods with
  | none =>
    intro r hr
    rcases List.mem_append.1 hr with hr | hr
    · exact h r hr
    · rw [List.mem_singleton.1 hr]; exact newRod_WF stock rods.length p
  | some rods' =>
    rcases placeInRods_some stock p hpl with ⟨pre, r0, post, rfl, _, _, rfl⟩
    intro r hr
    rcases List.mem_append.1 hr with hr | hr
    · exact h r (List.mem_append.2 (Or.inl hr))
    · rcases List.mem_cons.1 hr with rfl | hr'
      · exact updateRod_WF p (h r0 (List.mem_append.2 (Or.inr (List.mem_cons_self _ _))))
      · exact h r (List.mem_append.2 (Or.inr (List.mem_cons_of_mem _ hr')))

theorem packRods_WF (stock : ℚ) (demands : List (ℚ × Nat)) :
    ∀ r ∈ packRods stock demands, RodWF stock r := by
  rw [packRods]
  exact foldl_inv (P := fun rods => ∀ r ∈ rods, RodWF stock r) (Q := fun _ => True)
    (fun b a _ hP => placePart_WF stock a hP) (sortDesc (expand demands)) []
    (fun _ _ => trivial) (fun r hr => absurd hr (List.not_mem_nil r))

/-- Claim C1: conservation — the parts on the rods are exactly the expanded
part instances (as a multiset, so none is dropped or duplicated), the number of
placed parts is the sum of the quantities, and the total used length is the sum
of quantity times effective length over the demands. -/
theorem packRods_conservation (stock : ℚ) (demands : List (ℚ × Nat)) :
    List.Perm (rodsParts (packRods stock demands)) (expand demands) ∧
    (rodsParts (packRods stock demands)).length = (demands.map (fun d => d.2)).sum ∧
    ((packRods stock demands).map Rod.used_length).sum =
      (demands.map (fun d => (d.2 : ℚ) * d.1)).sum := by
  have hperm := packRods_parts_perm stock demands
  refine ⟨hperm, ?_, ?_⟩
  · rw [hperm.length_eq, expand_length]
  · have hWF := packRods_WF stock demands
    have h1 : (packRods stock demands).map Rod.used_length =
        (packRods stock demands).map (fun r => (r.parts.map Prod.fst).sum) :=
      List.map_congr_left (fun r hr => (hWF r hr).1)
    have h2 : ((rodsParts (packRods stock demands)).map Prod.fst).sum =
        ((packRods stock demands).map (fun r => (r.parts.map Prod.fst).sum)).sum := by
      simp only [rodsParts, List.map_flatten, List.sum_flatten, List.map_map]
      rfl
    rw [h1, ← h2, (hperm.map Prod.fst).sum_eq, expand_sum]

/-! ### Capacity invariant -/

theorem expandFrom_mem_length (ds : List (ℚ × Nat)) :
    ∀ i, ∀ p ∈ expandFrom i ds, ∃ d ∈ ds, p.1 = d.1 := by
  induction ds with
  | nil => intro i p hp; exact absurd hp (List.not_mem_nil p)
  | cons d ds ih =>
    intro i p hp
    rcases List.mem_append.1 hp with hp | hp
    · exact ⟨d, List.mem_cons_self d ds, by rw [List.eq_of_mem_replicate hp]⟩
    · rcases ih (i + 1) p hp with ⟨d', hd', hlen⟩
      exact ⟨d', List.mem_cons_of_mem d hd', hlen⟩

theorem placePart_capacity (stock : ℚ) {rods : List Rod} {p : ℚ × Nat}
    (hp : p.1 ≤ stock)
    (h : ∀ r ∈ rods, RodWF stock r ∧ r.used_length ≤ stock) :
    ∀ r ∈ placePart stock rods p, RodWF stock r ∧ r.used_length ≤ stock := by
  rw [placePart]
  cases hpl : placeInRods stock p rods with
  | none =>
    intro r hr
    rcases List.mem_append.1 hr with hr | hr
    · exact h r hr
    · rw [List.mem_singleton.1 hr]
      exact ⟨newRod_WF stock rods.length p, by simpa [newRod] using hp⟩
  | some rods' =>
    rcases placeInRods_some stock p hpl with ⟨pre, r0, post, rfl, _, hfit, rfl⟩
    have hr0 := h r0 (List.mem_append.2 (Or.inr (List.mem_cons_self _ _)))
    intro r hr
    rcases List.mem_append.1 hr with hr | hr
    · exact h r (List.mem_append.2 (Or.inl hr))
    · rcases List.mem_cons.1 hr with rfl | hr'
      · refine ⟨updateRod_WF p hr0.1, ?_⟩
        have hlo : r0.leftover = stock - r0.used_length := hr0.1.2
        have hsum : r0.used_length + p.1 ≤ stock := by
          have hfit' := hfit
          rw [hlo] at hfit'
          linarith
        simpa [updateRod] using hsum
      · exact h r (List.mem_append.2 (Or.inr (List.mem_cons_of_mem _ hr')))

theorem foldl_capacity (stock : ℚ) {items : List (ℚ × Nat)}
    (hitems : ∀ p ∈ items, p.1 ≤ stock) :
    ∀ r ∈ items.foldl (placePart stock) [], RodWF stock r ∧ r.used_length ≤ stock :=
  foldl_inv (P := fun rods => ∀ r ∈ rods, RodWF stock r ∧ r.used_length ≤ stock)
    (Q := fun p => p.1 ≤ stock) (fun _ _ hQ hP => placePart_capacity stock hQ hP)
    items [] hitems (fun r hr => absurd hr (List.not_mem_nil r))

/-- Claim C2: when every demanded effective length fits the stock length, every
rod of the result has `used_length ≤ stock_length` and `leftover ≥ 0`; and at
every point of the packing pass (after any number of placed items) every rod
moreover satisfies `leftover = stock_length - used_length` with `used_length`
the sum of its placed part lengths. -/
theorem packRods_capacity (stock : ℚ) (demands : List (ℚ × Nat))
    (h : ∀ d ∈ demands, d.1 ≤ stock) :
    (∀ r ∈ packRods stock demands, r.used_length ≤ stock ∧ 0 ≤ r.leftover) ∧
    ∀ n, ∀ r ∈ ((sortDesc (expand demands)).take n).foldl (placePart stock) [],
      r.used_length ≤ stock ∧ 0 ≤ r.leftover ∧
      r.leftover = stock - r.used_length ∧
      r.used_length = (r.parts.map Prod.fst).sum := by
  have hall : ∀ p ∈ sortDesc (expand demands), p.1 ≤ stock := by
    intro p hp
    have hp' : p ∈ expand demands := (sortDesc_perm (expand demands)).subset hp
    rcases expandFrom_mem_length demands 0 p hp' with ⟨d, hd, hlen⟩
    rw [hlen]
    exact h d hd
  constructor
  · intro r hr
    rw [packRods] at hr
    have hcap := foldl_capacity stock hall r hr
    exact ⟨hcap.2, by rw [hcap.1.2]; linarith [hcap.2]⟩
  · intro n r hr
    have htake : ∀ p ∈ (sortDesc (expand demands)).take n, p.1 ≤ stock :=
      fun p hp => hall p ((List.take_sublist n _).mem hp)
    have hcap := foldl_capacity stock htake r hr
    refine ⟨hcap.2, ?_, hcap.1.2, hcap.1.1⟩
    rw [hcap.1.2]
    linarith [hcap.2]

/-- Witness for C2 at stock length 5000 and demands `[(1002, 3)]`. -/
theorem packRods_capacity_witness :
    (⟨1, 3006, 1994, [(1002, 0), (1002, 0), (1002, 0)]⟩ : Rod).used_length ≤ 5000 ∧
    (0 : ℚ) ≤ (⟨1, 3006, 1994, [(1002, 0), (1002, 0), (1002, 0)]⟩ : Rod).leftover :=
  (packRods_capacity 5000 [(1002, 3)] (by norm_num)).1 _
    (by norm_num [packRods, expand, expandFrom, sortDesc, insertDesc, placePart,
      placeInRods, updateRod, newRod])

/-! ### The first-fit placement rule -/

/-- Claim C3: a part is placed into the first rod (in creation order) whose
leftover is at least the part's length, and a new rod — holding exactly this
part, with leftover `stock - length` — is appended if and only if no existing
rod qualifies (when some rod fits, the rod count does not grow). -/
theorem placePart_first_fit (stock : ℚ) (p : ℚ × Nat) (rods : List Rod) :
    ((∀ r ∈ rods, r.leftover < p.1) →
      placePart stock rods p = rods ++ [newRod stock rods.length p]) ∧
    (∀ (pre : List Rod) (r : Rod) (post : List Rod), rods = pre ++ r :: post →
      (∀ x ∈ pre, x.leftover < p.1) → p.1 ≤ r.leftover →
      placePart stock rods p = pre ++ updateRod stock r p :: post) ∧
    ((∃ r ∈ rods, p.1 ≤ r.leftover) → (placePart stock rods p).length = rods.length) ∧
    (newRod stock rods.length p).parts = [p] ∧
    (newRod stock rods.length p).leftover = stock - p.1 := by
  refine ⟨fun h => placePart_of_no_fit stock p h, ?_, ?_, rfl, rfl⟩
  · intro pre r post hdecomp hpre hfit
    rw [hdecomp]
    exact placePart_of_first_fit stock p post hpre hfit
  · rintro ⟨r, hr, hfit⟩
    rw [placePart]
    cases hpl : placeInRods stock p rods with
    | none =>
      exact absurd hfit (not_le.2 ((placeInRods_none_iff stock p rods).1 hpl r hr))
    | some rods' => exact placeInRods_length stock p hpl

/-- Witness for C3: a part that fits no rod opens a new rod; a part that fits
the first rod is placed there. -/
theorem placePart_first_fit_witness :
    placePart 10 [⟨1, 8, 2, [(8, 0)]⟩] (3, 1) =
      [⟨1, 8, 2, [(8, 0)]⟩] ++ [newRod 10 1 (3, 1)] ∧
    placePart 10 [⟨1, 8, 2, [(8, 0)]⟩] (2, 1) =
      [] ++ updateRod 10 ⟨1, 8, 2, [(8, 0)]⟩ (2, 1) :: [] :=
  ⟨(placePart_first_fit 10 (3, 1) [⟨1, 8, 2, [(8, 0)]⟩]).1
      (by intro r hr; rw [List.mem_singleton.1 hr]; norm_num),
    (placePart_first_fit 10 (2, 1) [⟨1, 8, 2, [(8, 0)]⟩]).2.1 [] ⟨1, 8, 2, [(8, 0)]⟩ []
      rfl (by intro x hx; exact absurd hx (List.not_mem_nil x)) (by norm_num)⟩

/-! ### Oversized parts -/

/-- A rod whose every part is positive in length. -/
def PosParts (r : Rod) : Prop :=
  ∀ p ∈ r.parts, 0 < p.1

/-- A rod keeps any part longer than the stock alone. -/
def OversizedAlone (stock : ℚ) (r : Rod) : Prop :=
  ∀ p ∈ r.parts, stock < p.1 → r.parts = [p]

theorem placePart_oversized (stock : ℚ) {rods : List Rod} {p : ℚ × Nat} (hp : 0 < p.1)
    (h : ∀ r ∈ rods, RodWF stock r ∧ PosParts r ∧ OversizedAlone stock r) :
    ∀ r ∈ placePart stock rods p, RodWF stock r ∧ PosParts r ∧ OversizedAlone stock r := by
  rw [placePart]
  cases hpl : placeInRods stock p rods with
  | none =>
    intro r hr
    rcases List.mem_append.1 hr with hr | hr
    · exact h r hr
    · rw [List.mem_singleton.1 hr]
      refine ⟨newRod_WF stock rods.length p, ?_, ?_⟩
      · intro q hq
        rw [List.mem_singleton.1 hq]
        exact hp
      · intro q hq _
        rw [List.mem_singleton.1 hq]
        rfl
  | some rods' =>
    rcases placeInRods_some stock p hpl with ⟨pre, r0, post, rfl, _, hfit, rfl⟩
    have hr0 := h r0 (List.mem_append.2 (Or.inr (List.mem_cons_self _ _)))
    have hno : ∀ q ∈ r0.parts, q.1 ≤ stock := by
      intro q hq
      by_contra hq'
      push_neg at hq'
      have hsingle := hr0.2.2 q hq hq'
      have hused : r0.used_length = q.1 := by rw [hr0.1.1, hsingle]; simp
      have hlo : r0.leftover = stock - q.1 := by rw [hr0.1.2, hused]
      have hneg : r0.leftover < 0 := by rw [hlo]; linarith
      linarith
    have hple : p.1 ≤ stock := by
      have hsum : 0 ≤ r0.used_length := by
        rw [hr0.1.1]
        exact List.sum_nonneg (by
          intro x hx
          rcases List.mem_map.1 hx with ⟨q, hq, rfl⟩
          exact le_of_lt (hr0.2.1 q hq))
      have := hfit
      rw [hr0.1.2] at this
      linarith
    intro r hr
    rcases List.mem_append.1 hr with hr | hr
    · exact h r (List.mem_append.2 (Or.inl hr))
    · rcases List.mem_cons.1 hr with rfl | hr'
      · refine ⟨updateRod_WF p hr0.1, ?_, ?_⟩
        · intro q hq
          rcases List.mem_append.1 hq with hq | hq
          · exact hr0.2.1 q hq
          · rw [List.mem_singleton.1 hq]
            exact hp
        · intro q hq hover
          exfalso
          rcases List.mem_append.1 hq with hq | hq
          · exact absurd hover (not_lt.2 (hno q hq))
          · rw [List.mem_singleton.1 hq] at hover
            exact absurd hover (not_lt.2 hple)
      · exact h r (List.mem_append.2 (Or.inr (List.mem_cons_of_mem _ hr')))

/-- Claim C4: with positive demand lengths, every part instance longer than the
stock length sits alone on its own rod, whose leftover is exactly
`stock_length - effective_length` (a negative value, preserved as-is); together
with conservation every such instance does appear on a rod, and the packer is a
total function, so no error occurs. -/
theorem packRods_oversized (stock : ℚ) (demands : List (ℚ × Nat))
    (hpos : ∀ d ∈ demands, 0 < d.1) :
    List.Perm (rodsParts (packRods stock demands)) (expand demands) ∧
    ∀ r ∈ packRods stock demands, ∀ p ∈ r.parts, stock < p.1 →
      r.parts = [p] ∧ r.leftover = stock - p.1 := by
  refine ⟨packRods_parts_perm stock demands, ?_⟩
  have hitems : ∀ p ∈ sortDesc (expand demands), 0 < p.1 := by
    intro p hp
    have hp' : p ∈ expand demands := (sortDesc_perm (expand demands)).subset hp
    rcases expandFrom_mem_length demands 0 p hp' with ⟨d, hd, hlen⟩
    rw [hlen]
    exact hpos d hd
  have hinv : ∀ r ∈ packRods stock demands,
      RodWF stock r ∧ PosParts r ∧ OversizedAlone stock r := by
    rw [packRods]
    exact foldl_inv
      (P := fun rods => ∀ r ∈ rods, RodWF stock r ∧ PosParts r ∧ OversizedAlone stock r)
      (Q := fun p => 0 < p.1) (fun _ _ hQ hP => placePart_oversized stock hQ hP)
      (sortDesc (expand demands)) [] hitems (fun r hr => absurd hr (List.not_mem_nil r))
  intro r hr p hp hover
  have halone := (hinv r hr).2.2 p hp hover
  refine ⟨halone, ?_⟩
  have hWF := (hinv r hr).1
  rw [hWF.2, hWF.1, halone]
  simp

/-- Witness for C4 at Scenario C: stock 1000, one demand of length 1500. -/
theorem packRods_oversized_witness :
    (⟨1, 1500, -500, [(1500, 0)]⟩ : Rod).parts = [((1500 : ℚ), 0)] ∧
    (⟨1, 1500, -500, [(1500, 0)]⟩ : Rod).leftover = 1000 - 1500 :=
  (packRods_oversized 1000 [(1500, 1)]
      (by intro d hd; rw [List.mem_singleton.1 hd]; norm_num)).2
    ⟨1, 1500, -500, [(1500, 0)]⟩
    (by norm_num [packRods, expand, expandFrom, sortDesc, insertDesc, placePart,
      placeInRods, updateRod, newRod])
    (1500, 0) (List.mem_singleton.2 rfl) (by norm_num)

/-! ### The first placed part -/

/-- The first part of the first rod. -/
def headPart (rods : List Rod) : Option (ℚ × Nat) :=
  rods.head?.bind (fun r => r.parts.head?)

theorem placePart_preserves_head (stock : ℚ) (p : ℚ × Nat) {rods : List Rod} {p0 : ℚ × Nat}
    (h : rods ≠ [] ∧ (∀ r ∈ rods, r.parts ≠ []) ∧ headPart rods = some p0) :
    placePart stock rods p ≠ [] ∧ (∀ r ∈ placePart stock rods p, r.parts ≠ []) ∧
      headPart (placePart stock rods p) = some p0 := by
  obtain ⟨hne, hparts, hhead⟩ := h
  rw [placePart]
  cases hpl : placeInRods stock p rods with
  | none =>
    refine ⟨by simp, ?_, ?_⟩
    · intro r hr
      rcases List.mem_append.1 hr with hr | hr
      · exact hparts r hr
      · rw [List.mem_singleton.1 hr]
        simp [newRod]
    · cases rods with
      | nil => exact absurd rfl hne
      | cons r0 rs => simpa [headPart] using hhead
  | some rods' =>
    rcases placeInRods_some stock p hpl with ⟨pre, r, post, rfl, _, _, rfl⟩
    refine ⟨by simp, ?_, ?_⟩
    · intro x hx
      rcases List.mem_append.1 hx with hx | hx
      · exact hparts x (List.mem_append.2 (Or.inl hx))
      · rcases List.mem_cons.1 hx with rfl | hx'
        · simp [updateRod]
        · exact hparts x (List.mem_append.2 (Or.inr (List.mem_cons_of_mem _ hx')))
    · cases pre with
      | nil =>
        have hrne : r.parts ≠ [] := hparts r (List.mem_cons_self r post)
        cases hrp : r.parts with
        | nil => exact absurd hrp hrne
        | cons a as =>
          rw [List.nil_append] at hhead ⊢
          simp only [headPart, List.head?_cons, Option.bind_some, hrp] at hhead ⊢
          simpa [updateRod, hrp] using hhead
      | cons q qs => simpa [headPart] using hhead

theorem head_max_of_sorted {items : List (ℚ × Nat)} {p0 : ℚ × Nat} {rest : List (ℚ × Nat)}
    (hsorted : items.Pairwise (fun a b => b.1 ≤ a.1)) (heq : items = p0 :: rest) :
    ∀ q ∈ items, q.1 ≤ p0.1 := by
  subst heq
  intro q hq
  rcases List.mem_cons.1 hq with rfl | hq'
  · exact le_rfl
  · exact (List.pairwise_cons.1 hsorted).1 q hq'

theorem find_first_max (l : List (ℚ × Nat)) (M : ℚ) (p : ℚ × Nat) (t : List (ℚ × Nat))
    (hle : ∀ q ∈ l, q.1 ≤ M) (hfil : l.filter (fun q => decide (q.1 = M)) = p :: t) :
    l.find? (fun q => decide (M ≤ q.1)) = some p := by
  induction l generalizing t with
  | nil => exact absurd hfil (by simp)
  | cons a l ih =>
    by_cases ha : a.1 = M
    · rw [List.filter_cons, if_pos (by simp [ha])] at hfil
      have hap : a = p := (List.cons_eq_cons.1 hfil).1
      rw [List.find?_cons]
      have : decide (M ≤ a.1) = true := by simp [ha]
      rw [this]
      rw [hap]
    · have hlt : a.1 < M :=
        lt_of_le_of_ne (hle a (List.mem_cons_self a l)) ha
      rw [List.filter_cons, if_neg (by simp [ha])] at hfil
      rw [List.find?_cons]
      have : decide (M ≤ a.1) = false := by simp [not_le.2 hlt]
      rw [this]
      exact ih _ (fun q hq => hle q (List.mem_cons_of_mem a hq)) hfil

/-- Claim C6: when there is at least one part instance, the first part placed
on the first rod is the part of maximum effective length among all expanded
instances, and among equally long parts it is the earliest one in expansion
order (it is what a first scan for a part of maximal length finds). -/
theorem packRods_first_part_max (stock : ℚ) (demands : List (ℚ × Nat))
    (h : expand demands ≠ []) :
    ∃ p0, headPart (packRods stock demands) = some p0 ∧
      (∀ q ∈ expand demands, q.1 ≤ p0.1) ∧
      (expand demands).find? (fun q => decide (p0.1 ≤ q.1)) = some p0 := by
  have hsne : sortDesc (expand demands) ≠ [] := by
    intro hnil
    exact h (List.Perm.eq_nil ((sortDesc_perm (expand demands)).symm.trans (hnil ▸ List.Perm.refl _)))
  cases hitems : sortDesc (expand demands) with
  | nil => exact absurd hitems hsne
  | cons p0 rest =>
    refine ⟨p0, ?_, ?_, ?_⟩
    · rw [packRods, hitems]
      have hstart : placePart stock [] p0 = [newRod stock 0 p0] := by
        rw [placePart]
        rfl
      have hinv := foldl_inv
        (P := fun rods => rods ≠ [] ∧ (∀ r ∈ rods, r.parts ≠ []) ∧ headPart rods = some p0)
        (Q := fun _ => True)
        (fun b a _ hP => placePart_preserves_head stock a hP) rest (placePart stock [] p0)
        (fun _ _ => trivial) ?_
      · exact hinv.2.2
      · rw [hstart]
        refine ⟨by simp, ?_, by simp [headPart, newRod]⟩
        intro r hr
        rw [List.mem_singleton.1 hr]
        simp [newRod]
    · intro q hq
      exact head_max_of_sorted (sortDesc_pairwise (expand demands)) hitems q
        ((sortDesc_perm (expand demands)).symm.subset hq)
    · have hmax : ∀ q ∈ expand demands, q.1 ≤ p0.1 := by
        intro q hq
        exact head_max_of_sorted (sortDesc_pairwise (expand demands)) hitems q
          ((sortDesc_perm (expand demands)).symm.subset hq)
      have hfil : (expand demands).filter (fun q => decide (q.1 = p0.1)) =
          p0 :: rest.filter (fun q => decide (q.1 = p0.1)) := by
        rw [← sortDesc_filter, hitems, List.filter_cons, if_pos (by simp)]
      exact find_first_max (expand demands) p0.1 p0 _ hmax hfil

/-- Witness for C6 at stock length 5000 and demands `[(1002, 3)]`. -/
theorem packRods_first_part_max_witness :
    ∃ p0, headPart (packRods 5000 [((1002 : ℚ), 3)]) = some p0 ∧
      (∀ q ∈ expand [((1002 : ℚ), 3)], q.1 ≤ p0.1) ∧
      (expand [((1002 : ℚ), 3)]).find? (fun q => decide (p0.1 ≤ q.1)) = some p0 :=
  packRods_first_part_max 5000 [((1002 : ℚ), 3)] (by simp [expand, expandFrom])

/-! ### Degenerate inputs -/

theorem expandFrom_eq_nil {ds : List (ℚ × Nat)} (h : ∀ d ∈ ds, d.2 = 0) :
    ∀ i, expandFrom i ds = [] := by
  induction ds with
  | nil => intro i; rfl
  | cons d ds ih =>
    intro i
    rw [expandFrom, h d (List.mem_cons_self d ds), ih (fun x hx => h x (List.mem_cons_of_mem d hx))]
    rfl

/-- Claim C7: the empty demand list — and likewise any demand list whose
quantities are all zero — produces a result with zero rows (zero rods). -/
theorem first_fit_decreasing_empty (stock : ℚ) :
    first_fit_decreasing stock [] = [] ∧
    ∀ demands : List (ℚ × Nat), (∀ d ∈ demands, d.2 = 0) →
      first_fit_decreasing stock demands = [] := by
  refine ⟨rfl, ?_⟩
  intro demands h
  rw [first_fit_decreasing, packRods, expand, expandFrom_eq_nil h 0]
  rfl

/-- Witness for C7 with two zero-quantity demands. -/
theorem first_fit_decreasing_empty_witness :
    first_fit_decreasing 5000 [((7 : ℚ), 0), ((3 : ℚ), 0)] = [] :=
  (first_fit_decreasing_empty 5000).2 [((7 : ℚ), 0), ((3 : ℚ), 0)] (by
    intro d hd
    rcases List.mem_cons.1 hd with rfl | hd
    · rfl
    · rcases List.mem_cons.1 hd with rfl | hd
      · rfl
      · exact absurd hd (List.not_mem_nil d))

/-! ### Totality bounds -/

theorem placePart_length_le (stock : ℚ) (rods : List Rod) (p : ℚ × Nat) :
    (placePart stock rods p).length ≤ rods.length + 1 := by
  rw [placePart]
  cases hpl : placeInRods stock p rods with
  | none => simp
  | some rods' => rw [placeInRods_length stock p hpl]; omega

theorem foldl_length_le (stock : ℚ) (items : List (ℚ × Nat)) :
    ∀ rods : List Rod,
      (items.foldl (placePart stock) rods).length ≤ rods.length + items.length := by
  induction items with
  | nil => intro rods; simp
  | cons p ps ih =>
    intro rods
    have h1 := ih (placePart stock rods p)
    have h2 := placePart_length_le stock rods p
    simp only [List.foldl_cons, List.length_cons]
    omega

theorem expandFrom_tags (ds : List (ℚ × Nat)) :
    ∀ i, ∀ p ∈ expandFrom i ds,
      ∃ j, ∃ hj : j < ds.length, p.2 = i + j ∧ 0 < (ds.get ⟨j, hj⟩).2 := by
  induction ds with
  | nil => intro i p hp; exact absurd hp (List.not_mem_nil p)
  | cons d ds ih =>
    intro i p hp
    rcases List.mem_append.1 hp with hp | hp
    · rcases List.mem_replicate.1 hp with ⟨hqty, rfl⟩
      exact ⟨0, by simp, by simp, Nat.pos_of_ne_zero hqty⟩
    · rcases ih (i + 1) p hp with ⟨j, hj, htag, hqty⟩
      exact ⟨j + 1, by simpa using hj, by omega, hqty⟩

/-- Claim C8: the packer is a total function on all inputs (its rod count is
bounded by the number of part instances and the row count equals the rod
count), and a demand with quantity zero contributes no part instance: no part
carries its index. -/
theorem first_fit_decreasing_total (stock : ℚ) (demands : List (ℚ × Nat)) :
    (packRods stock demands).length ≤ (expand demands).length ∧
    (first_fit_decreasing stock demands).length = (packRods stock demands).length ∧
    ∀ i, ∀ hi : i < demands.length, (demands.get ⟨i, hi⟩).2 = 0 →
      ∀ p ∈ expand demands, p.2 ≠ i := by
  refine ⟨?_, by simp [first_fit_decreasing], ?_⟩
  · rw [packRods]
    have h1 := foldl_length_le stock (sortDesc (expand demands)) []
    simpa [(sortDesc_perm (expand demands)).length_eq] using h1
  · intro i hi hqty p hp hpi
    rcases expandFrom_tags demands 0 p hp with ⟨j, hj, htag, hqty'⟩
    have hji : j = i := by omega
    subst hji
    rw [hqty] at hqty'
    exact absurd hqty' (lt_irrefl 0)

/-- Witness for C8 with a single zero-quantity demand. -/
theorem first_fit_decreasing_total_witness :
    ∀ p ∈ expand [((5 : ℚ), 0)], p.2 ≠ 0 :=
  (first_fit_decreasing_total 1000 [((5 : ℚ), 0)]).2.2 0 (by norm_num) rfl

/-! ### Shape of the packed rods -/

theorem placePart_parts_shape (stock : ℚ) (rods : List Rod) (p : ℚ × Nat) :
    ∀ r' ∈ placePart stock rods p,
      r' ∈ rods ∨ (∃ r ∈ rods, r' = updateRod stock r p) ∨
        r' = newRod stock rods.length p := by
  rw [placePart]
  cases hpl : placeInRods stock p rods with
  | none =>
    intro r' hr'
    rcases List.mem_append.1 hr' with hr' | hr'
    · exact Or.inl hr'
    · exact Or.inr (Or.inr (List.mem_singleton.1 hr'))
  | some rods' =>
    rcases placeInRods_some stock p hpl with ⟨pre, r0, post, rfl, _, _, rfl⟩
    intro r' hr'
    rcases List.mem_append.1 hr' with hr' | hr'
    · exact Or.inl (List.mem_append.2 (Or.inl hr'))
    · rcases List.mem_cons.1 hr' with rfl | hr'
      · exact Or.inr (Or.inl ⟨r0, List.mem_append.2 (Or.inr (List.mem_cons_self _ _)), rfl⟩)
      · exact Or.inl (List.mem_append.2 (Or.inr (List.mem_cons_of_mem _ hr')))

theorem foldl_parts_sorted (stock : ℚ) (items : List (ℚ × Nat)) :
    ∀ rods : List Rod,
      items.Pairwise (fun a b => b.1 ≤ a.1) →
      (∀ r ∈ rods, r.parts.Pairwise (fun a b => b.1 ≤ a.1)) →
      (∀ r ∈ rods, ∀ x ∈ r.parts, ∀ q ∈ items, q.1 ≤ x.1) →
      ∀ r ∈ items.foldl (placePart stock) rods,
        r.parts.Pairwise (fun a b => b.1 ≤ a.1) := by
  induction items with
  | nil => intro rods _ hsorted _ r hr; exact hsorted r hr
  | cons q qs ih =>
    intro rods hpair hsorted hbound
    rcases List.pairwise_cons.1 hpair with ⟨hq, hqs⟩
    refine ih (placePart stock rods q) hqs ?_ ?_
    · intro r' hr'
      rcases placePart_parts_shape stock rods q r' hr' with hr' | ⟨r, hr, rfl⟩ | rfl
      · exact hsorted r' hr'
      · rw [updateRod]
        refine List.pairwise_append.2 ⟨hsorted r hr, List.pairwise_singleton _ _, ?_⟩
        intro a ha b hb
        rw [List.mem_singleton.1 hb]
        exact hbound r hr a ha q (List.mem_cons_self q qs)
      · simp [newRod]
    · intro r' hr' x hx q' hq'
      rcases placePart_parts_shape stock rods q r' hr' with hr' | ⟨r, hr, rfl⟩ | rfl
      · exact hbound r' hr' x hx q' (List.mem_cons_of_mem q hq')
      · rcases List.mem_append.1 hx with hx | hx
        · exact hbound r hr x hx q' (List.mem_cons_of_mem q hq')
        · rw [List.mem_singleton.1 hx]
          exact hq q' hq'
      · rw [List.mem_singleton.1 hx]
        exact hq q' hq'

theorem placePart_map_id (stock : ℚ) (rods : List Rod) (p : ℚ × Nat) :
    placePart stock rods p = rods ++ [newRod stock rods.length p] ∨
    ((placePart stock rods p).map Rod.rod_id = rods.map Rod.rod_id ∧
      (placePart stock rods p).length = rods.length) := by
  rw [placePart]
  cases hpl : placeInRods stock p rods with
  | none => exact Or.inl rfl
  | some rods' =>
    rcases placeInRods_some stock p hpl with ⟨pre, r0, post, rfl, _, _, rfl⟩
    refine Or.inr ⟨?_, by simp⟩
    simp [updateRod]

theorem foldl_ids (stock : ℚ) (items : List (ℚ × Nat)) :
    ∀ rods : List Rod,
      rods.map Rod.rod_id = List.range' 1 rods.length →
      (items.foldl (placePart stock) rods).map Rod.rod_id =
        List.range' 1 (items.foldl (placePart stock) rods).length := by
  induction items with
  | nil => intro rods h; exact h
  | cons p ps ih =>
    intro rods h
    refine ih (placePart stock rods p) ?_
    rcases placePart_map_id stock rods p with heq | ⟨hmap, hlen⟩
    · rw [heq]
      rw [List.map_append, h]
      have hcat := @List.range'_concat 1 1 rods.length
      simp only [Nat.one_mul] at hcat
      simp [hcat, Nat.add_comm 1 rods.length, newRod]
    · rw [hmap, hlen, h]

/-- Claim C10: within every rod of the result the placed parts appear in
non-increasing order of effective length, and the rod identifiers are exactly
the consecutive integers 1..n in output order. -/
theorem packRods_rod_order (stock : ℚ) (demands : List (ℚ × Nat)) :
    (∀ r ∈ packRods stock demands, r.parts.Pairwise (fun a b => b.1 ≤ a.1)) ∧
    (packRods stock demands).map Rod.rod_id =
      List.range' 1 (packRods stock demands).length := by
  constructor
  · rw [packRods]
    exact foldl_parts_sorted stock (sortDesc (expand demands)) []
      (sortDesc_pairwise (expand demands))
      (fun r hr => absurd hr (List.not_mem_nil r))
      (fun r hr => absurd hr (List.not_mem_nil r))
  · rw [packRods]
    exact foldl_ids stock (sortDesc (expand demands)) [] rfl

/-- Witness for C10 at stock length 5000 and demands `[(2502, 1), (2502, 1)]`. -/
theorem packRods_rod_order_witness :
    (⟨1, 2502, 2498, [((2502 : ℚ), 0)]⟩ : Rod).parts.Pairwise (fun a b => b.1 ≤ a.1) :=
  (packRods_rod_order 5000 [((2502 : ℚ), 1), ((2502 : ℚ), 1)]).1
    ⟨1, 2502, 2498, [((2502 : ℚ), 0)]⟩
    (by norm_num [packRods, expand, expandFrom, sortDesc, insertDesc, placePart,
      placeInRods, updateRod, newRod])

/-! ### Grouping of parts for the result rows -/

/-- The position of the first occurrence of a key in a key list (used to state
that the summary groups appear in first-encountered order). -/
def firstIdx (k : Nat × ℚ) : List (Nat × ℚ) → Nat
  | [] => 0
  | x :: xs => if x = k then 0 else firstIdx k xs + 1

theorem firstIdx_append_of_mem {k : Nat × ℚ} {l : List (Nat × ℚ)} (l' : List (Nat × ℚ))
    (h : k ∈ l) : firstIdx k (l ++ l') = firstIdx k l := by
  induction l with
  | nil => exact absurd h (List.not_mem_nil k)
  | cons x xs ih =>
    by_cases hx : x = k
    · simp [firstIdx, hx]
    · rcases List.mem_cons.1 h with rfl | h'
      · exact absurd rfl hx
      · simp [firstIdx, hx, ih h']

theorem firstIdx_append_self {k : Nat × ℚ} {l : List (Nat × ℚ)} (h : k ∉ l) :
    firstIdx k (l ++ [k]) = l.length := by
  induction l with
  | nil => simp [firstIdx]
  | cons x xs ih =>
    have hx : ¬(x = k) := fun he => h (he ▸ List.mem_cons_self x xs)
    have h' : k ∉ xs := fun hc => h (List.mem_cons_of_mem x hc)
    simp [firstIdx, hx, ih h']

theorem firstIdx_lt_length {k : Nat × ℚ} {l : List (Nat × ℚ)} (h : k ∈ l) :
    firstIdx k l < l.length := by
  induction l with
  | nil => exact absurd h (List.not_mem_nil k)
  | cons x xs ih =>
    by_cases hx : x = k
    · simp [firstIdx, hx]
    · rcases List.mem_cons.1 h with rfl | h'
      · exact absurd rfl hx
      · simpa [firstIdx, hx] using ih h'

/-- Invariant of the counting dictionary after processing the parts in `done`:
its keys are distinct, are exactly the keys occurring in `done`, are listed in
first-encountered order, and each count is the number of occurrences. -/
def GroupInv (done : List (ℚ × Nat)) (acc : List ((Nat × ℚ) × Nat)) : Prop :=
  (acc.map Prod.fst).Nodup ∧
  (∀ k, k ∈ acc.map Prod.fst ↔ k ∈ done.map partKey) ∧
  (∀ g ∈ acc, g.2 = done.countP (fun q => decide (partKey q = g.1))) ∧
  (acc.map Prod.fst).Pairwise (fun a b =>
    firstIdx a (done.map partKey) < firstIdx b (done.map partKey))

theorem bumpKey_inv {done : List (ℚ × Nat)} {acc : List ((Nat × ℚ) × Nat)}
    (p : ℚ × Nat) (h : GroupInv done acc) :
    GroupInv (done ++ [p]) (bumpKey acc (partKey p)) := by
  obtain ⟨hnodup, hmem, hcount, hpair⟩ := h
  by_cases hk : partKey p ∈ acc.map Prod.fst
  · have hany : acc.any (fun g => decide (g.1 = partKey p)) = true := by
      rcases List.mem_map.1 hk with ⟨g, hg, hgk⟩
      exact List.any_eq_true.2 ⟨g, hg, by simp [hgk]⟩
    rw [bumpKey, if_pos hany]
    have hkeys : (acc.map (fun g => if g.1 = partKey p then (g.1, g.2 + 1) else g)).map Prod.fst
        = acc.map Prod.fst := by
      rw [List.map_map]
      refine List.map_congr_left ?_
      intro g _
      by_cases hg : g.1 = partKey p <;> simp [hg]
    refine ⟨?_, ?_, ?_, ?_⟩
    · rw [hkeys]; exact hnodup
    · intro k
      rw [hkeys]
      simp only [List.map_append, List.map_cons, List.map_nil]
      constructor
      · intro hin
        exact List.mem_append.2 (Or.inl ((hmem k).1 hin))
      · intro hin
        rcases List.mem_append.1 hin with hin | hin
        · exact (hmem k).2 hin
        · rw [List.mem_singleton.1 hin]
          exact hk
    · intro g' hg'
      rcases List.mem_map.1 hg' with ⟨g, hg, rfl⟩
      by_cases hgk : g.1 = partKey p
      · rw [if_pos hgk]
        have hone : [p].countP (fun q => decide (partKey q = g.1)) = 1 := by
          simp [List.countP_cons, hgk.symm]
        rw [List.countP_append, hone, ← hcount g hg]
      · rw [if_neg hgk]
        have hnil : [p].countP (fun q => decide (partKey q = g.1)) = 0 := by
          simp only [List.countP_cons, List.countP_nil]
          simp only [decide_eq_true_eq]
          rw [if_neg (fun hc => hgk hc.symm)]
        rw [hcount g hg, List.countP_append, hnil]
        omega
    · rw [hkeys]
      refine hpair.imp_of_mem ?_
      intro a b ha hb hab
      simp only [List.map_append, List.map_cons, List.map_nil]
      rw [firstIdx_append_of_mem _ ((hmem a).1 ha), firstIdx_append_of_mem _ ((hmem b).1 hb)]
      exact hab
  · have hany : ¬(acc.any (fun g => decide (g.1 = partKey p)) = true) := by
      intro hc
      rcases List.any_eq_true.1 hc with ⟨g, hg, hgk⟩
      exact hk (List.mem_map.2 ⟨g, hg, by simpa using hgk⟩)
    rw [bumpKey, if_neg hany]
    refine ⟨?_, ?_, ?_, ?_⟩
    · simp only [List.map_append, List.map_cons, List.map_nil]
      refine List.nodup_append.2 ⟨hnodup, List.nodup_singleton _, ?_⟩
      intro a ha hb
      rw [List.mem_singleton.1 hb] at ha
      exact hk ha
    · intro k
      simp only [List.map_append, List.map_cons, List.map_nil]
      constructor
      · intro hin
        rcases List.mem_append.1 hin with hin | hin
        · exact List.mem_append.2 (Or.inl ((hmem k).1 hin))
        · exact List.mem_append.2 (Or.inr hin)
      · intro hin
        rcases List.mem_append.1 hin with hin | hin
        · exact List.mem_append.2 (Or.inl ((hmem k).2 hin))
        · exact List.mem_append.2 (Or.inr hin)
    · intro g hg
      rcases List.mem_append.1 hg with hg | hg
      · have hne : ¬(partKey p = g.1) := by
          intro he
          exact hk (he ▸ List.mem_map.2 ⟨g, hg, rfl⟩)
        have hnil : [p].countP (fun q => decide (partKey q = g.1)) = 0 := by
          simp only [List.countP_cons, List.countP_nil]
          simp only [decide_eq_true_eq]
          rw [if_neg hne]
        rw [hcount g hg, List.countP_append, hnil]
        omega
      · rw [List.mem_singleton.1 hg]
        have hzero : done.countP (fun q => decide (partKey q = partKey p)) = 0 := by
          rw [List.countP_eq_zero]
          intro q hq hqk
          have hqk' : partKey q = partKey p := by simpa using hqk
          exact hk ((hmem _).2 (List.mem_map.2 ⟨q, hq, hqk'⟩))
        have hone : [p].countP (fun q => decide (partKey q = partKey p)) = 1 := by
          simp [List.countP_cons]
        rw [List.countP_append, hzero, hone]
    · simp only [List.map_append, List.map_cons, List.map_nil]
      have hnp : partKey p ∉ done.map partKey := fun hc => hk ((hmem _).2 hc)
      refine List.pairwise_append.2 ⟨?_, List.pairwise_singleton _ _, ?_⟩
      · refine hpair.imp_of_mem ?_
        intro a b ha hb hab
        rw [firstIdx_append_of_mem _ ((hmem a).1 ha), firstIdx_append_of_mem _ ((hmem b).1 hb)]
        exact hab
      · intro a ha b hb
        rw [List.mem_singleton.1 hb]
        have ha' : a ∈ done.map partKey := (hmem a).1 ha
        rw [firstIdx_append_of_mem _ ha', firstIdx_append_self hnp]
        exact firstIdx_lt_length ha'

theorem groupCounts_inv (parts : List (ℚ × Nat)) : GroupInv parts (groupCounts parts) := by
  have hfold : ∀ (todo done : List (ℚ × Nat)) (acc : List ((Nat × ℚ) × Nat)),
      GroupInv done acc →
      GroupInv (done ++ todo) (todo.foldl (fun a q => bumpKey a (partKey q)) acc) := by
    intro todo
    induction todo with
    | nil => intro done acc h; simpa using h
    | cons p ps ih =>
      intro done acc h
      have h2 := ih (done ++ [p]) (bumpKey acc (partKey p)) (bumpKey_inv p h)
      simpa [List.append_assoc] using h2
  have hbase : GroupInv [] [] := by
    refine ⟨List.nodup_nil, ?_, ?_, List.Pairwise.nil⟩
    · intro k; simp
    · intro g hg; exact absurd hg (List.not_mem_nil g)
  simpa [groupCounts] using hfold parts [] [] hbase

/-- Claim C9: the result has one row per rod in creation order, carrying the
rod's 1-based number, used length, leftover, and a parts summary that groups
the rod's parts by `(demand index, length)` with correct occurrence counts and
no duplicate group, lists the groups in first-encountered order, and formats
each group as `count × integer-length`, comma-joined. -/
theorem first_fit_decreasing_rows (stock : ℚ) (demands : List (ℚ × Nat)) :
    first_fit_decreasing stock demands = (packRods stock demands).map mkRow ∧
    ∀ r ∈ packRods stock demands,
      mkRow r = ⟨r.rod_id, r.used_length, r.leftover,
        String.intercalate ", " ((groupCounts r.parts).map
          (fun g => toString g.2 ++ " × " ++ toString (truncRat g.1.2)))⟩ ∧
      ((groupCounts r.parts).map Prod.fst).Nodup ∧
      (∀ k, k ∈ (groupCounts r.parts).map Prod.fst ↔ k ∈ r.parts.map partKey) ∧
      (∀ g ∈ groupCounts r.parts,
        g.2 = r.parts.countP (fun q => decide (partKey q = g.1))) ∧
      ((groupCounts r.parts).map Prod.fst).Pairwise (fun a b =>
        firstIdx a (r.parts.map partKey) < firstIdx b (r.parts.map partKey)) := by
  refine ⟨rfl, fun r _ => ?_⟩
  obtain ⟨h1, h2, h3, h4⟩ := groupCounts_inv r.parts
  exact ⟨rfl, h1, h2, h3, h4⟩

/-- Witness for C9 at stock length 5000 and demands `[(1002, 2), (500, 1)]`. -/
theorem first_fit_decreasing_rows_witness :
    ((groupCounts [((1002 : ℚ), 0), ((1002 : ℚ), 0), ((500 : ℚ), 1)]).map Prod.fst).Nodup ∧
    ∀ g ∈ groupCounts [((1002 : ℚ), 0), ((1002 : ℚ), 0), ((500 : ℚ), 1)],
      g.2 = [((1002 : ℚ), 0), ((1002 : ℚ), 0), ((500 : ℚ), 1)].countP
        (fun q => decide (partKey q = g.1)) :=
  have h := (first_fit_decreasing_rows 5000 [((1002 : ℚ), 2), ((500 : ℚ), 1)]).2
    ⟨1, 2504, 2496, [((1002 : ℚ), 0), ((1002 : ℚ), 0), ((500 : ℚ), 1)]⟩
    (by norm_num [packRods, expand, expandFrom, sortDesc, insertDesc, placePart,
      placeInRods, updateRod, newRod])
  ⟨h.2.1, h.2.2.2.1⟩
